import Mathlib

/-!
# Verification of the arXiv daily-report pipeline

A shallow embedding of the repository's two Python modules
(`ArxivDailyReport.py` and `database.py`) together with proofs about the
behaviours the specification describes: idempotent insertion, pruning by
publish timestamp, deterministic batching, the bounded-retry wrapper
around the external summarization call, the degraded report paths, the
window-bounded feed scan, and identifier canonicalization.

Strings are Lean `String`s; SQLite's `TEXT` comparison on ISO-8601 UTC
texts is modelled by the lexicographic order on `String`.  Timestamps
that take part in arithmetic (the scan window) are modelled as integer
instants (seconds), with Python `datetime` values carrying an optional
timezone offset so that `to_utc` can be embedded faithfully.
-/

set_option autoImplicit false

namespace DailyReport

/-! ## database.py: the persistent store

One SQLite table `papers(arxiv_id PRIMARY KEY, title, summary,
published_utc, created_at)` is modelled as a list of rows in insertion
order.  `datetime.now(timezone.utc).isoformat()`, generated inside
`insert_if_new`, is passed in as the explicit argument `created_at`. -/

structure StoredRecord where
  arxiv_id : String
  title : String
  summary : String
  published_utc : String
  created_at : String
  deriving DecidableEq, Repr

/-- Function `insert_if_new` from `database.py`: `SELECT` by primary key; if a row
exists return `False` and leave the table unchanged, otherwise `INSERT`
the new row and return `True`. -/
def insert_if_new (db : List StoredRecord) (arxiv_id title summary published created_at : String) :
    Bool × List StoredRecord :=
  if db.any (fun r => r.arxiv_id = arxiv_id) then
    (false, db)
  else
    (true, db ++ [⟨arxiv_id, title, summary, published, created_at⟩])

/-- SQLite `TEXT <` under the default BINARY collation, on the ISO-8601
UTF-8 texts the program stores: lexicographic comparison of the
characters.  (`String.lt` is definitionally this order on `String.data`;
we state it on `.data` so that the kernel can evaluate it.) -/
def textLt (a b : String) : Prop := a.data < b.data

instance (a b : String) : Decidable (textLt a b) :=
  inferInstanceAs (Decidable (a.data < b.data))

/-- Function `prune_old_papers` from `database.py`: `DELETE FROM papers WHERE
published_utc < cutoff`, returning `cur.rowcount` (the number of deleted
rows) and the surviving table.  The row scan is the recursion. -/
def prune_old_papers (db : List StoredRecord) (cutoff_iso : String) : Nat × List StoredRecord :=
  match db with
  | [] => (0, [])
  | r :: rest =>
    let res := prune_old_papers rest cutoff_iso
    if textLt r.published_utc cutoff_iso then (res.1 + 1, res.2) else (res.1, r :: res.2)

/-! ## Pruning -/

/-- Changing only the `created_at` field of every row. -/
def retimeRow (f : StoredRecord → String) (r : StoredRecord) : StoredRecord :=
  { r with created_at := f r }

/-! ## Batching: `split_chunks`

`split_chunks(items, size)` is a generator, `yield items[i:i + size]` for
`i in range(0, len(items), size)`.  All call sites drain it immediately,
so it is embedded as the list of yielded chunks — or the `ValueError`
that `range` raises for a zero step when the generator is first advanced.
With a negative step, `range(0, len(items), size)` is empty, so the
generator silently yields nothing. -/

/-- The chunks for a positive step: one slice `items[k*size : k*size+size]`
for each of the `⌈len/size⌉` indices produced by `range`. -/
def chunksPos {α : Type _} (items : List α) (size : Nat) : List (List α) :=
  (List.range ((items.length + size - 1) / size)).map
    (fun k => (items.drop (k * size)).take size)

/-- Function `split_chunks` from `ArxivDailyReport.py`, drained. -/
def split_chunks {α : Type _} (items : List α) (size : Int) : Except String (List (List α)) :=
  if size = 0 then Except.error "range() arg 3 must not be zero"
  else if size < 0 then Except.ok []
  else Except.ok (chunksPos items size.toNat)

/-! ## The retry wrapper: `call_chatgpt_with_retry`

The external chat-completion call is abstracted as a function from the
attempt number (1-based) to its outcome: it either raises, or returns the
(optional) content of the first choice's message.  The wrapper loops the
attempt number from 1 to the bound; a raised exception records its text
as the last error, content that fails the Python truthiness test records
the text "empty response", and truthy content is returned stripped at
once; after the loop the wrapper returns the bracketed failure
placeholder carrying the last error.  The embedding also returns the
number of attempts actually performed, the observable the spec's retry
properties talk about.  Note that the truthiness test on the content
treats the empty string and a missing content as falsy, but a
whitespace-only string such as one single space as truthy. -/

/-- Embedding of Python `str.strip()` (on the whitespace the summaries and contents
contain): drop leading and trailing whitespace characters. -/
def pyStrip (s : String) : String :=
  ⟨((s.data.dropWhile Char.isWhitespace).reverse.dropWhile Char.isWhitespace).reverse⟩

/-- The outcome of one attempted external call. -/
inductive CallOutcome where
  | raise (msg : String)
  | ret (content : Option String)
  deriving DecidableEq, Repr

/-- Rendering of `last_error` into the failure placeholder: Python
formats the initial `None` as `"None"`. -/
def lastErrorText : Option String → String
  | none => "None"
  | some e => e

/-- The failure placeholder returned after retry exhaustion. -/
def failurePlaceholder (lastError : Option String) : String :=
  "[Report generation failed after retries: " ++ lastErrorText lastError ++ "]"

/-- The retry loop body; `attempt` is the 1-based attempt number about to
run, `remaining` the number of loop iterations left.  Returns the string
the Python function returns, paired with the number of attempts that were
actually performed. -/
def retryLoop (call : Nat → CallOutcome) (attempt remaining : Nat)
    (lastError : Option String) : String × Nat :=
  match remaining with
  | 0 => (failurePlaceholder lastError, attempt - 1)
  | Nat.succ r =>
    match call attempt with
    | CallOutcome.raise e => retryLoop call (attempt + 1) r (some e)
    | CallOutcome.ret none => retryLoop call (attempt + 1) r (some "empty response")
    | CallOutcome.ret (some s) =>
      if s = "" then retryLoop call (attempt + 1) r (some "empty response")
      else (pyStrip s, attempt)

/-- Function `call_chatgpt_with_retry` from `ArxivDailyReport.py`, with the
external call abstracted and the attempt count exposed. -/
def call_chatgpt_with_retry (call : Nat → CallOutcome) (max_attempts : Nat) : String × Nat :=
  retryLoop call 1 max_attempts none

/-- An attempt is failed in the sense of the code: the call raised, the
response had no content, or the content was the empty string.  (A
whitespace-only content string is NOT failed: Python's `if content:`
is true on it.) -/
def attemptFails (o : CallOutcome) : Prop :=
  (∃ e, o = CallOutcome.raise e) ∨ o = CallOutcome.ret none ∨
    o = CallOutcome.ret (some "")

/-- The `last_error` value recorded for a failed attempt. -/
def errorOf (o : CallOutcome) : String :=
  match o with
  | CallOutcome.raise e => e
  | CallOutcome.ret _ => "empty response"

/-! ## The report composer: `generate_report_with_chatgpt`

The per-batch summarization (`call_chatgpt_with_retry` with the client,
model, run time, timeout and attempt bound fixed) is abstracted as a
function from the batch to its section text.  `os.getenv("OPENAI_API_KEY")`
is an `Option String` (`None` when unset); Python's `if not api_key:`
is also true for the empty string.  The result is paired with the number
of summarizer invocations (one per batch), and the `range` error of a
zero chunk size propagates as the `Except.error` case. -/

structure Paper where
  arxiv_id : String
  title : String
  published_utc : String
  url : String
  summary : String
  deriving DecidableEq, Repr

def no_new_report : String :=
  "# Arxiv Daily Report\n\nNo new papers were found in this run."

def skipped_report : String :=
  "# Arxiv Daily Report\n\n" ++
    "Found new papers, but skipped ChatGPT summary because OPENAI_API_KEY is not set."

/-- Function `generate_report_with_chatgpt` from `ArxivDailyReport.py`. -/
def generate_report_with_chatgpt (papers : List Paper) (api_key : Option String)
    (chunk_size : Int) (summarize : List Paper → String) :
    Except String (String × Nat) :=
  if papers.isEmpty then Except.ok (no_new_report, 0)
  else if api_key.getD "" = "" then Except.ok (skipped_report, 0)
  else
    match split_chunks papers chunk_size with
    | Except.error e => Except.error e
    | Except.ok chunks =>
      let sections := chunks.enum.map
        (fun p => "## Batch " ++ toString (p.1 + 1) ++ "\n\n" ++ summarize p.2)
      Except.ok ("# Arxiv Daily Report\n\n" ++ String.intercalate "\n\n" sections,
        chunks.length)

/-! ## Identifier canonicalization

`main` computes `tail = r.entry_id.split("/")[-1]` and then
`arxiv_id = tail.split("v")[0]`.  Python's `str.split` with a one-character
separator is embedded on character lists; it always returns a non-empty
list, so `[-1]` and `[0]` are `getLastD`/`headD`. -/

/-- Python `s.split(sep)` for a single-character separator. -/
def pySplit (sep : Char) : List Char → List (List Char)
  | [] => [[]]
  | c :: rest =>
    if c = sep then [] :: pySplit sep rest
    else
      match pySplit sep rest with
      | [] => [[c]]
      | g :: gs => (c :: g) :: gs

/-- The id computed by `main` for one feed entry:
`entry_id.split("/")[-1].split("v")[0]`. -/
def arxiv_id_of_entry (entry_id : List Char) : List Char :=
  (pySplit 'v' ((pySplit '/' entry_id).getLastD [])).headD []

/-- The same computation on `String`. -/
def canonical_arxiv_id (entry_id : String) : String :=
  ⟨arxiv_id_of_entry entry_id.data⟩

/-- The spec's wording of canonicalization, for comparison with the
code's: strip a trailing version suffix of the form `v` followed by one
or more digits from the final path segment, and otherwise leave the
segment unchanged. -/
def specStripVersion (tail : List Char) : List Char :=
  if (tail.reverse.takeWhile Char.isDigit).isEmpty = false ∧
      (tail.reverse.dropWhile Char.isDigit).head? = some 'v' then
    (tail.reverse.dropWhile Char.isDigit).tail.reverse
  else tail

/-! ## The window-bounded scan loop in `main`

`main` iterates over the feed (sorted by descending submission date),
normalizes each entry's publish time with `to_utc`, breaks out of the
loop at the first entry strictly before `window_start`, and otherwise
attempts insertion and collects the newly inserted entries.  Python
`datetime`s are embedded as a clock reading (seconds) plus an optional
UTC-offset tag; comparisons between aware datetimes compare instants.
`isoformat` serialization only labels stored rows, so the loop is
parametric in it; likewise in the `created_at` text `insert_if_new`
generates internally. -/

structure PyDatetime where
  wall : Int
  tz : Option Int
  deriving DecidableEq, Repr

/-- Function `to_utc` from `ArxivDailyReport.py`, as the resulting UTC instant: a
naive datetime keeps its clock reading and is tagged UTC; an aware one is
converted to UTC (instant = clock reading minus offset). -/
def to_utc (d : PyDatetime) : Int :=
  match d.tz with
  | none => d.wall
  | some off => d.wall - off

structure FeedEntry where
  entry_id : String
  title : String
  summary : Option String
  published : PyDatetime
  deriving DecidableEq, Repr

/-- The dict `main` appends to `new_papers` for an inserted entry. -/
def mkPaper (iso : Int → String) (r : FeedEntry) : Paper :=
  { arxiv_id := canonical_arxiv_id r.entry_id
    title := r.title
    published_utc := iso (to_utc r.published)
    url := r.entry_id
    summary := pyStrip (r.summary.getD "") }

structure ScanResult where
  new_papers : List Paper
  scanned : Nat
  in_window : Nat
  db : List StoredRecord
  deriving Repr

/-- The `for r in search.results():` loop of `main`: count the entry as
scanned; stop (`break`) if its UTC publish time is strictly before
`window_start`; otherwise count it as in-window, attempt insertion of its
canonical id, and emit it as new exactly when the insertion was fresh. -/
def scan_feed (window_start : Int) (iso : Int → String) (now_iso : String) :
    List FeedEntry → List StoredRecord → ScanResult
  | [], db => ⟨[], 0, 0, db⟩
  | r :: rest, db =>
    if to_utc r.published < window_start then
      ⟨[], 1, 0, db⟩
    else
      let p := mkPaper iso r
      let ins := insert_if_new db p.arxiv_id r.title p.summary p.published_utc now_iso
      let tailRes := scan_feed window_start iso now_iso rest ins.2
      ⟨(if ins.1 then [p] else []) ++ tailRes.new_papers,
        tailRes.scanned + 1, tailRes.in_window + 1, tailRes.db⟩

/-- The prefix of the feed the loop can see: entries up to (excluding)
the first one strictly before the window start. -/
def scanWindow (window_start : Int) (feed : List FeedEntry) : List FeedEntry :=
  feed.takeWhile (fun r => !decide (to_utc r.published < window_start))

/-! ## Theorems -/

/-! ## Basic store lemmas -/

theorem insert_if_new_of_absent (db : List StoredRecord)
    (id title summary published created_at : String)
    (habs : ∀ r ∈ db, r.arxiv_id ≠ id) :
    insert_if_new db id title summary published created_at =
      (true, db ++ [⟨id, title, summary, published, created_at⟩]) := by
  unfold insert_if_new
  rw [if_neg]
  simp only [List.any_eq_true, decide_eq_true_eq]
  push_neg
  exact habs

theorem insert_if_new_of_present (db : List StoredRecord)
    (id title summary published created_at : String)
    (hpres : ∃ r ∈ db, r.arxiv_id = id) :
    insert_if_new db id title summary published created_at = (false, db) := by
  unfold insert_if_new
  rw [if_pos]
  simp only [List.any_eq_true, decide_eq_true_eq]
  exact hpres

/-- C2 helper: the fresh row inserted by a successful call carries the
requested primary key. -/
theorem mem_insert_snd (db : List StoredRecord)
    (id title summary published created_at : String) :
    ∃ r ∈ (insert_if_new db id title summary published created_at).2, r.arxiv_id = id := by
  unfold insert_if_new
  by_cases h : (db.any fun r => decide (r.arxiv_id = id)) = true
  · rw [if_pos h]
    simpa using h
  · rw [if_neg h]
    exact ⟨⟨id, title, summary, published, created_at⟩, by simp, rfl⟩

/-- Claim C2: Inserting the same id twice, starting from any store in which
the id is absent: the first call reports a fresh insertion, the second
reports "already present", and the store after both calls is the store
after the first call alone. -/
theorem insert_twice_idempotent (db : List StoredRecord)
    (id t1 s1 p1 c1 t2 s2 p2 c2 : String)
    (habs : ∀ r ∈ db, r.arxiv_id ≠ id) :
    (insert_if_new db id t1 s1 p1 c1).1 = true ∧
    (insert_if_new (insert_if_new db id t1 s1 p1 c1).2 id t2 s2 p2 c2).1 = false ∧
    (insert_if_new (insert_if_new db id t1 s1 p1 c1).2 id t2 s2 p2 c2).2 =
      (insert_if_new db id t1 s1 p1 c1).2 := by
  have h1 := insert_if_new_of_absent db id t1 s1 p1 c1 habs
  have hpres : ∃ r ∈ (insert_if_new db id t1 s1 p1 c1).2, r.arxiv_id = id := by
    rw [h1]
    exact ⟨⟨id, t1, s1, p1, c1⟩, by simp, rfl⟩
  have h2 := insert_if_new_of_present _ id t2 s2 p2 c2 hpres
  refine ⟨by rw [h1], by rw [h2], by rw [h2]⟩

/-- Claim C2 witness: A concrete double insertion into the empty store. -/
theorem insert_twice_idempotent_witness :
    (insert_if_new [] "2502.12345" "T" "S" "2026-10-10T00:00:00+00:00" "now1").1 = true ∧
    (insert_if_new (insert_if_new [] "2502.12345" "T" "S" "2026-10-10T00:00:00+00:00" "now1").2
        "2502.12345" "T" "S" "2026-10-10T00:00:00+00:00" "now2").1 = false ∧
    (insert_if_new (insert_if_new [] "2502.12345" "T" "S" "2026-10-10T00:00:00+00:00" "now1").2
        "2502.12345" "T" "S" "2026-10-10T00:00:00+00:00" "now2").2 =
      (insert_if_new [] "2502.12345" "T" "S" "2026-10-10T00:00:00+00:00" "now1").2 :=
  insert_twice_idempotent [] "2502.12345" "T" "S" "2026-10-10T00:00:00+00:00" "now1"
    "T" "S" "2026-10-10T00:00:00+00:00" "now2" (by simp)

theorem prune_count_eq_filter (db : List StoredRecord) (cutoff : String) :
    (prune_old_papers db cutoff).1 =
      (db.filter (fun r => decide (textLt r.published_utc cutoff))).length := by
  induction db with
  | nil => rfl
  | cons r rest ih =>
    by_cases h : textLt r.published_utc cutoff
    · simp [prune_old_papers, h, List.filter, ih]
    · simp [prune_old_papers, h, List.filter, ih]

theorem prune_kept_eq_filter (db : List StoredRecord) (cutoff : String) :
    (prune_old_papers db cutoff).2 =
      db.filter (fun r => decide (¬ textLt r.published_utc cutoff)) := by
  induction db with
  | nil => rfl
  | cons r rest ih =>
    by_cases h : textLt r.published_utc cutoff
    · simp [prune_old_papers, h, List.filter, ih]
    · simp [prune_old_papers, h, List.filter, ih]

/-- Claim C5: `prune_old_papers` keeps exactly the rows whose stored
`published_utc` is not below the cutoff, returns the number of deleted
rows, and its decision is a function of `published_utc` alone: rewriting
every row's `created_at` changes neither the count nor which primary keys
survive. -/
theorem prune_old_papers_correct (db : List StoredRecord) (cutoff : String)
    (f : StoredRecord → String) :
    (prune_old_papers db cutoff).2 =
      db.filter (fun r => decide (¬ textLt r.published_utc cutoff)) ∧
    (prune_old_papers db cutoff).1 =
      (db.filter (fun r => decide (textLt r.published_utc cutoff))).length ∧
    (prune_old_papers db cutoff).1 + (prune_old_papers db cutoff).2.length = db.length ∧
    (prune_old_papers (db.map (retimeRow f)) cutoff).1 = (prune_old_papers db cutoff).1 ∧
    (prune_old_papers (db.map (retimeRow f)) cutoff).2.map (fun r => r.arxiv_id) =
      ((prune_old_papers db cutoff).2.map (fun r => r.arxiv_id)) := by
  refine ⟨prune_kept_eq_filter db cutoff, prune_count_eq_filter db cutoff, ?_, ?_, ?_⟩
  · induction db with
    | nil => rfl
    | cons r rest ih =>
      by_cases h : textLt r.published_utc cutoff
      · simp only [prune_old_papers, h, if_pos, List.length_cons]
        omega
      · simp only [prune_old_papers, h, if_neg, not_false_iff, List.length_cons]
        omega
  · induction db with
    | nil => rfl
    | cons r rest ih =>
      by_cases h : textLt r.published_utc cutoff
      · simp [prune_old_papers, retimeRow, h, ih]
      · simp [prune_old_papers, retimeRow, h, ih]
  · induction db with
    | nil => rfl
    | cons r rest ih =>
      by_cases h : textLt r.published_utc cutoff
      · simp [prune_old_papers, retimeRow, h, ih]
      · simp [prune_old_papers, retimeRow, h, ih]

/-- Claim C5 witness: The spec's example: stored publish times one second
below the window start, at the window start, and one second above it;
pruning at the window start deletes exactly one row and returns 1. -/
theorem prune_old_papers_witness :
    (prune_old_papers
        [⟨"a" , "ta", "sa", "2026-10-06T23:59:59+00:00", "ca"⟩,
         ⟨"b" , "tb", "sb", "2026-10-07T00:00:00+00:00", "cb"⟩,
         ⟨"c" , "tc", "sc", "2026-10-07T00:00:01+00:00", "cc"⟩]
        "2026-10-07T00:00:00+00:00").1 = 1 ∧
    (prune_old_papers
        [⟨"a" , "ta", "sa", "2026-10-06T23:59:59+00:00", "ca"⟩,
         ⟨"b" , "tb", "sb", "2026-10-07T00:00:00+00:00", "cb"⟩,
         ⟨"c" , "tc", "sc", "2026-10-07T00:00:01+00:00", "cc"⟩]
        "2026-10-07T00:00:00+00:00").2.map (fun r => r.arxiv_id) = ["b", "c"] := by
  have h := prune_old_papers_correct
    [⟨"a" , "ta", "sa", "2026-10-06T23:59:59+00:00", "ca"⟩,
     ⟨"b" , "tb", "sb", "2026-10-07T00:00:00+00:00", "cb"⟩,
     ⟨"c" , "tc", "sc", "2026-10-07T00:00:01+00:00", "cc"⟩]
    "2026-10-07T00:00:00+00:00" (fun _ => "z")
  refine ⟨?_, ?_⟩
  · rw [h.2.1]; decide
  · rw [h.1]; decide

theorem chunksPos_nil {α : Type _} (n : Nat) : chunksPos ([] : List α) n = [] := by
  unfold chunksPos
  rw [List.length_nil]
  have h : (0 + n - 1) / n = 0 := by
    cases n with
    | zero => simp
    | succ m => exact Nat.div_eq_of_lt (by omega)
  rw [h]
  rfl

theorem chunksPos_cons {α : Type _} (x : α) (xs : List α) (n : Nat) (hn : 0 < n) :
    chunksPos (x :: xs) n = (x :: xs).take n :: chunksPos ((x :: xs).drop n) n := by
  unfold chunksPos
  have h1 : ((x :: xs).length + n - 1) / n = xs.length / n + 1 := by
    have : (x :: xs).length + n - 1 = xs.length + n := by
      simp only [List.length_cons]; omega
    rw [this, Nat.add_div_right _ hn]
  have h2 : (((x :: xs).drop n).length + n - 1) / n = xs.length / n := by
    rw [List.length_drop]
    rcases le_or_lt n (xs.length + 1) with h | h
    · have he : (x :: xs).length - n + n - 1 = xs.length := by
        simp only [List.length_cons]; omega
      rw [he]
    · have hlen : (x :: xs).length - n = 0 := by
        simp only [List.length_cons]; omega
      rw [hlen]
      have h0 : 0 + n - 1 = n - 1 := by omega
      rw [h0, Nat.div_eq_of_lt (by omega)]
      symm
      apply Nat.div_eq_of_lt
      omega
  rw [h1, h2, List.range_succ_eq_map, List.map_cons, List.map_map]
  congr 1
  · simp
  · apply List.map_congr_left
    intro k _
    simp only [Function.comp_apply]
    rw [List.drop_drop]
    congr 2
    rw [Nat.succ_mul]
    omega

theorem chunksPos_eq_nil_iff {α : Type _} (xs : List α) (n : Nat) (hn : 0 < n) :
    chunksPos xs n = [] ↔ xs = [] := by
  constructor
  · intro h
    cases xs with
    | nil => rfl
    | cons x rest =>
      rw [chunksPos_cons x rest n hn] at h
      exact absurd h (List.cons_ne_nil _ _)
  · intro h
    rw [h]
    exact chunksPos_nil n

theorem chunksPos_join_aux {α : Type _} (n : Nat) (hn : 0 < n) :
    ∀ (N : Nat) (xs : List α), xs.length ≤ N → (chunksPos xs n).flatten = xs := by
  intro N
  induction N with
  | zero =>
    intro xs hxs
    have : xs = [] := List.eq_nil_of_length_eq_zero (Nat.le_zero.mp hxs)
    rw [this, chunksPos_nil]
    rfl
  | succ N ih =>
    intro xs hxs
    cases xs with
    | nil => rw [chunksPos_nil]; rfl
    | cons x rest =>
      rw [chunksPos_cons x rest n hn, List.flatten_cons]
      have hlen : ((x :: rest).drop n).length ≤ N := by
        rw [List.length_drop]
        simp only [List.length_cons] at hxs ⊢
        omega
      rw [ih _ hlen]
      exact List.take_append_drop n (x :: rest)

theorem chunksPos_mem_aux {α : Type _} (n : Nat) (hn : 0 < n) :
    ∀ (N : Nat) (xs : List α), xs.length ≤ N →
      ∀ c ∈ chunksPos xs n, c ≠ [] ∧ c.length ≤ n := by
  intro N
  induction N with
  | zero =>
    intro xs hxs c hc
    have : xs = [] := List.eq_nil_of_length_eq_zero (Nat.le_zero.mp hxs)
    rw [this, chunksPos_nil] at hc
    exact absurd hc (List.not_mem_nil c)
  | succ N ih =>
    intro xs hxs c hc
    cases xs with
    | nil =>
      rw [chunksPos_nil] at hc
      exact absurd hc (List.not_mem_nil c)
    | cons x rest =>
      rw [chunksPos_cons x rest n hn] at hc
      rcases List.mem_cons.mp hc with h | h
      · subst h
        constructor
        · cases n with
          | zero => exact absurd hn (by omega)
          | succ m => simp [List.take_cons]
        · rw [List.length_take]
          exact Nat.min_le_left _ _
      · have hlen : ((x :: rest).drop n).length ≤ N := by
          rw [List.length_drop]
          simp only [List.length_cons] at hxs ⊢
          omega
        exact ih _ hlen c h

theorem chunksPos_dropLast_aux {α : Type _} (n : Nat) (hn : 0 < n) :
    ∀ (N : Nat) (xs : List α), xs.length ≤ N →
      ∀ c ∈ (chunksPos xs n).dropLast, c.length = n := by
  intro N
  induction N with
  | zero =>
    intro xs hxs c hc
    have : xs = [] := List.eq_nil_of_length_eq_zero (Nat.le_zero.mp hxs)
    rw [this, chunksPos_nil] at hc
    exact absurd hc (List.not_mem_nil c)
  | succ N ih =>
    intro xs hxs c hc
    cases xs with
    | nil =>
      rw [chunksPos_nil] at hc
      exact absurd hc (List.not_mem_nil c)
    | cons x rest =>
      rw [chunksPos_cons x rest n hn] at hc
      rcases hrec : chunksPos ((x :: rest).drop n) n with _ | ⟨c0, cs⟩
      · rw [hrec] at hc
        exact absurd hc (List.not_mem_nil c)
      · rw [hrec, List.dropLast_cons₂] at hc
        have hlen : ((x :: rest).drop n).length ≤ N := by
          rw [List.length_drop]
          simp only [List.length_cons] at hxs ⊢
          omega
        rcases List.mem_cons.mp hc with h | h
        · subst h
          have hne : (x :: rest).drop n ≠ [] := by
            intro hdrop
            rw [(chunksPos_eq_nil_iff _ n hn).mpr hdrop] at hrec
            exact absurd hrec.symm (List.cons_ne_nil c0 cs)
          have hlt : n < (x :: rest).length :=
            Nat.lt_of_not_le (fun hle => hne (List.drop_eq_nil_of_le hle))
          rw [List.length_take]
          omega
        · have := ih _ hlen c
          rw [hrec] at this
          exact this h

/-- Claim C6: For a positive size, `split_chunks` succeeds, every group
except possibly the last has exactly `size` elements, every group is
non-empty and no larger than `size`, and there are zero groups exactly
for the empty input. -/
theorem split_chunks_batching {α : Type _} (xs : List α) (size : Int) (hpos : 0 < size) :
    ∃ cs, split_chunks xs size = Except.ok cs ∧
      (∀ c ∈ cs.dropLast, c.length = size.toNat) ∧
      (∀ c ∈ cs, c ≠ [] ∧ c.length ≤ size.toNat) ∧
      (cs = [] ↔ xs = []) := by
  have hz : ¬ size = 0 := by omega
  have hneg : ¬ size < 0 := by omega
  have hn : 0 < size.toNat := by omega
  refine ⟨chunksPos xs size.toNat, ?_, ?_, ?_, ?_⟩
  · unfold split_chunks
    rw [if_neg hz, if_neg hneg]
  · exact chunksPos_dropLast_aux size.toNat hn xs.length xs (Nat.le_refl _)
  · exact chunksPos_mem_aux size.toNat hn xs.length xs (Nat.le_refl _)
  · exact chunksPos_eq_nil_iff xs size.toNat hn

/-- Claim C6 witness: 25 elements with size 10 give groups of sizes
10, 10, 5; the empty input gives zero groups. -/
theorem split_chunks_batching_witness :
    (∃ cs, split_chunks (List.range 25) (10 : Int) = Except.ok cs ∧
      (∀ c ∈ cs.dropLast, c.length = (10 : Int).toNat) ∧
      (∀ c ∈ cs, c ≠ [] ∧ c.length ≤ (10 : Int).toNat) ∧
      (cs = [] ↔ List.range 25 = [])) ∧
    ((split_chunks (List.range 25) (10 : Int)).toOption.getD []).map List.length =
      [10, 10, 5] ∧
    split_chunks ([] : List Nat) (10 : Int) = Except.ok [] :=
  ⟨split_chunks_batching (List.range 25) 10 (by decide), by decide, rfl⟩

/-- Claim C10: For a positive size, concatenating the produced groups in
order restores the input list exactly: chunking loses no element,
duplicates none, and preserves order. -/
theorem split_chunks_join {α : Type _} (xs : List α) (size : Int) (hpos : 0 < size) :
    ∃ cs, split_chunks xs size = Except.ok cs ∧ cs.flatten = xs := by
  have hz : ¬ size = 0 := by omega
  have hneg : ¬ size < 0 := by omega
  have hn : 0 < size.toNat := by omega
  refine ⟨chunksPos xs size.toNat, ?_, ?_⟩
  · unfold split_chunks
    rw [if_neg hz, if_neg hneg]
  · exact chunksPos_join_aux size.toNat hn xs.length xs (Nat.le_refl _)

/-- Claim C10 witness: Flattening the chunks of a concrete 25-element list
returns the list itself. -/
theorem split_chunks_join_witness :
    ∃ cs, split_chunks (List.range 25) (10 : Int) = Except.ok cs ∧
      cs.flatten = List.range 25 :=
  split_chunks_join (List.range 25) 10 (by decide)

/-- Claim C7 counterexample: A non-empty input with the non-positive size
`-1` does not fail: `range(0, 3, -1)` is empty, so the call silently
yields zero groups and no error is raised. -/
theorem split_chunks_neg_size_silent :
    split_chunks [(1 : Nat), 2, 3] (-1 : Int) = Except.ok [] ∧
    ∀ e, split_chunks [(1 : Nat), 2, 3] (-1 : Int) ≠ Except.error e := by
  refine ⟨rfl, ?_⟩
  intro e h
  have h2 : (Except.ok ([] : List (List Nat)) : Except String _) = Except.error e := by
    calc Except.ok ([] : List (List Nat))
        = split_chunks [(1 : Nat), 2, 3] (-1 : Int) := rfl
      _ = Except.error e := h
  exact Except.noConfusion h2

/-- Claim C7 amended: Only the size `0` makes `split_chunks` fail (with the
`range` step error, raised once the generator is consumed); every
negative size silently yields zero groups for every input. -/
theorem split_chunks_nonpos {α : Type _} (xs : List α) (size : Int) :
    (size = 0 → split_chunks xs size = Except.error "range() arg 3 must not be zero") ∧
    (size < 0 → split_chunks xs size = Except.ok []) := by
  constructor
  · intro h
    unfold split_chunks
    rw [if_pos h]
  · intro h
    unfold split_chunks
    rw [if_neg (by omega), if_pos h]

/-- Claim C7 amended witness: The zero and negative cases at concrete
inputs. -/
theorem split_chunks_nonpos_witness :
    split_chunks [(1 : Nat), 2, 3] (0 : Int) =
      Except.error "range() arg 3 must not be zero" ∧
    split_chunks [(1 : Nat), 2, 3] (-2 : Int) = Except.ok [] :=
  ⟨(split_chunks_nonpos [(1 : Nat), 2, 3] 0).1 rfl,
   (split_chunks_nonpos [(1 : Nat), 2, 3] (-2)).2 (by decide)⟩

theorem retryLoop_of_fails (call : Nat → CallOutcome) (attempt : Nat)
    (o : CallOutcome) (hf : attemptFails o) (ho : call attempt = o)
    (r : Nat) (le : Option String) :
    retryLoop call attempt (r + 1) le = retryLoop call (attempt + 1) r (some (errorOf o)) := by
  rcases hf with ⟨e, he⟩ | he | he <;> subst he <;>
    simp [retryLoop, ho, errorOf]

/-- Exhaustion: if every attempt in the window `[attempt, attempt+r)`
fails, the loop runs all `r` remaining iterations and ends with the
placeholder built from the last attempt's error. -/
theorem retryLoop_exhaust (call : Nat → CallOutcome) :
    ∀ (r : Nat) (attempt : Nat) (le : Option String), 0 < r →
      (∀ i, attempt ≤ i → i < attempt + r → attemptFails (call i)) →
      retryLoop call attempt r le =
        (failurePlaceholder (some (errorOf (call (attempt + r - 1)))), attempt + r - 1) := by
  intro r
  induction r with
  | zero => intro attempt le h; omega
  | succ r ih =>
    intro attempt le _ hall
    have hfirst : attemptFails (call attempt) := hall attempt (Nat.le_refl _) (by omega)
    rw [retryLoop_of_fails call attempt (call attempt) hfirst rfl r le]
    cases r with
    | zero =>
      simp only [retryLoop]
      have h1 : attempt + 1 - 1 = attempt := by omega
      rw [h1]
    | succ r' =>
      rw [ih (attempt + 1) (some (errorOf (call attempt))) (by omega)
        (fun i h1 h2 => hall i (by omega) (by omega))]
      have h1 : attempt + 1 + (r' + 1) - 1 = attempt + (r' + 1 + 1) - 1 := by omega
      rw [h1]

/-- First success: if every attempt before `k` fails and attempt `k`
returns truthy content, the loop returns that content trimmed, after
exactly `k` attempts. -/
theorem retryLoop_first_success (call : Nat → CallOutcome) (s : String) (hs : s ≠ "") :
    ∀ (r : Nat) (attempt k : Nat) (le : Option String),
      attempt ≤ k → k < attempt + r →
      (∀ i, attempt ≤ i → i < k → attemptFails (call i)) →
      call k = CallOutcome.ret (some s) →
      retryLoop call attempt r le = (pyStrip s, k) := by
  intro r
  induction r with
  | zero => intro attempt k le h1 h2 h3 h4; omega
  | succ r ih =>
    intro attempt k le h1 h2 hfail hk
    rcases Nat.eq_or_lt_of_le h1 with heq | hlt
    · subst heq
      simp [retryLoop, hk, hs]
    · have hfirst : attemptFails (call attempt) := hfail attempt (Nat.le_refl _) hlt
      rw [retryLoop_of_fails call attempt (call attempt) hfirst rfl r le]
      exact ih (attempt + 1) k _ hlt (by omega)
        (fun i hi1 hi2 => hfail i (by omega) hi2) hk

/-- Claim C3 counterexample: A stub whose every attempt returns the
whitespace-only content `" "`, with `max_attempts = 3`: under the claim
every attempt is failed, so the wrapper would run all 3 attempts and
return the failure placeholder; the code instead treats `" "` as truthy,
makes exactly one attempt, and returns the trimmed content `""`. -/
theorem whitespace_content_is_success :
    call_chatgpt_with_retry (fun _ => CallOutcome.ret (some " ")) 3 = ("", 1) ∧
    (call_chatgpt_with_retry (fun _ => CallOutcome.ret (some " ")) 3).2 ≠ 3 ∧
    (call_chatgpt_with_retry (fun _ => CallOutcome.ret (some " ")) 3).1 ≠
      failurePlaceholder (some "empty response") := by
  refine ⟨rfl, by decide, by decide⟩

/-- Claim C3 amended: An attempt counts as failed exactly when the call
raises, returns no content, or returns the empty content string — a
whitespace-only content string counts as success.  On the first attempt
whose content is truthy (non-empty before trimming) the wrapper returns
that content trimmed, having made exactly that many attempts and no
more. -/
theorem call_retry_first_success (call : Nat → CallOutcome) (max_attempts k : Nat)
    (s : String) (h1 : 1 ≤ k) (h2 : k ≤ max_attempts)
    (hfail : ∀ i, 1 ≤ i → i < k → attemptFails (call i))
    (hk : call k = CallOutcome.ret (some s)) (hs : s ≠ "") :
    call_chatgpt_with_retry call max_attempts = (pyStrip s, k) :=
  retryLoop_first_success call s hs max_attempts 1 k none h1 (by omega) hfail hk

/-- Claim C3 amended witness: Attempt 1 raises, attempt 2 returns
`"  ok  "`; with 3 allowed attempts the wrapper returns `"ok"` after
exactly 2 attempts. -/
theorem call_retry_first_success_witness :
    call_chatgpt_with_retry
      (fun i => if i = 1 then CallOutcome.raise "boom"
                else CallOutcome.ret (some "  ok  ")) 3 = ("ok", 2) := by
  have h := call_retry_first_success
    (fun i => if i = 1 then CallOutcome.raise "boom"
              else CallOutcome.ret (some "  ok  ")) 3 2 "  ok  "
    (by omega) (by omega)
    (fun i hi1 hi2 => by
      have : i = 1 := by omega
      subst this
      exact Or.inl ⟨"boom", rfl⟩)
    (by simp) (by simp)
  rw [h]
  decide

/-- Claim C4: If every one of the `max_attempts ≥ 1` attempts fails (raise,
no content, or empty content), the wrapper performs exactly
`max_attempts` sequential attempts and returns the marked failure
placeholder embedding the last attempt's error, instead of raising. -/
theorem call_retry_exhaustion (call : Nat → CallOutcome) (max_attempts : Nat)
    (hpos : 1 ≤ max_attempts)
    (hall : ∀ i, 1 ≤ i → i ≤ max_attempts → attemptFails (call i)) :
    call_chatgpt_with_retry call max_attempts =
      ("[Report generation failed after retries: " ++ errorOf (call max_attempts) ++ "]",
        max_attempts) := by
  unfold call_chatgpt_with_retry
  rw [retryLoop_exhaust call max_attempts 1 none hpos
    (fun i hi1 hi2 => hall i hi1 (by omega))]
  have h1 : 1 + max_attempts - 1 = max_attempts := by omega
  rw [h1]
  rfl

/-- Claim C4 witness: A stub that always raises `"boom"`, with 3 allowed
attempts: 3 attempts are made and the placeholder embeds `"boom"`. -/
theorem call_retry_exhaustion_witness :
    call_chatgpt_with_retry (fun _ => CallOutcome.raise "boom") 3 =
      ("[Report generation failed after retries: boom]", 3) := by
  have h := call_retry_exhaustion (fun _ => CallOutcome.raise "boom") 3 (by omega)
    (fun i _ _ => Or.inl ⟨"boom", rfl⟩)
  rw [h]
  decide

/-- Claim C8: The two degraded paths return their fixed reports with zero
summarizer invocations: the empty new-records list gives the "no new
papers" report even with a credential, and a missing (or falsy)
credential gives the "skipped" report; conversely any run that invoked
the summarizer at all had a non-empty record list and a truthy
credential. -/
theorem generate_report_degraded (papers : List Paper) (api_key : Option String)
    (chunk_size : Int) (summarize : List Paper → String) :
    (papers = [] → generate_report_with_chatgpt papers api_key chunk_size summarize =
        Except.ok (no_new_report, 0)) ∧
    (papers ≠ [] → api_key.getD "" = "" →
      generate_report_with_chatgpt papers api_key chunk_size summarize =
        Except.ok (skipped_report, 0)) ∧
    (∀ r n, generate_report_with_chatgpt papers api_key chunk_size summarize =
        Except.ok (r, n) → 0 < n → papers ≠ [] ∧ api_key.getD "" ≠ "") := by
  have hempty : papers = [] →
      generate_report_with_chatgpt papers api_key chunk_size summarize =
        Except.ok (no_new_report, 0) := by
    intro h
    subst h
    rfl
  have hskip : papers ≠ [] → api_key.getD "" = "" →
      generate_report_with_chatgpt papers api_key chunk_size summarize =
        Except.ok (skipped_report, 0) := by
    intro hne hk
    unfold generate_report_with_chatgpt
    have h1 : papers.isEmpty = false := by
      cases papers with
      | nil => exact absurd rfl hne
      | cons a l => rfl
    rw [h1]
    simp only [Bool.false_eq_true, if_false]
    rw [if_pos hk]
  refine ⟨hempty, hskip, ?_⟩
  intro r n h hn
  by_cases hp : papers = []
  · rw [hempty hp] at h
    simp only [Except.ok.injEq, Prod.mk.injEq] at h
    omega
  · by_cases hk : api_key.getD "" = ""
    · rw [hskip hp hk] at h
      simp only [Except.ok.injEq, Prod.mk.injEq] at h
      omega
    · exact ⟨hp, hk⟩

/-- Claim C8 witness: The three branches at concrete inputs: empty list
(with no key), non-empty list with no key, and non-empty list with a key
(where one summarizer call is made). -/
theorem generate_report_degraded_witness :
    generate_report_with_chatgpt [] none 10 (fun _ => "S") =
      Except.ok (no_new_report, 0) ∧
    generate_report_with_chatgpt [⟨"1", "t", "p", "u", "s"⟩] none 10 (fun _ => "S") =
      Except.ok (skipped_report, 0) ∧
    ([(⟨"1", "t", "p", "u", "s"⟩ : Paper)] ≠ [] ∧
      (some "k" : Option String).getD "" ≠ "") := by
  refine ⟨(generate_report_degraded [] none 10 (fun _ => "S")).1 rfl,
    (generate_report_degraded [⟨"1", "t", "p", "u", "s"⟩] none 10 (fun _ => "S")).2.1
      (by simp) rfl,
    (generate_report_degraded [⟨"1", "t", "p", "u", "s"⟩] (some "k") 10
        (fun _ => "S")).2.2 ("# Arxiv Daily Report\n\n## Batch 1\n\nS") 1 ?_ (by omega)⟩
  rfl

theorem pySplit_ne_nil (sep : Char) (l : List Char) : pySplit sep l ≠ [] := by
  cases l with
  | nil => exact List.cons_ne_nil _ _
  | cons c rest =>
    unfold pySplit
    by_cases h : c = sep
    · rw [if_pos h]; exact List.cons_ne_nil _ _
    · rw [if_neg h]
      cases pySplit sep rest with
      | nil => exact List.cons_ne_nil _ _
      | cons g gs => exact List.cons_ne_nil _ _

theorem pySplit_headD (sep : Char) (l : List Char) :
    (pySplit sep l).headD [] = l.takeWhile (fun c => decide (c ≠ sep)) := by
  induction l with
  | nil => rfl
  | cons c rest ih =>
    unfold pySplit
    by_cases h : c = sep
    · subst h
      rw [if_pos rfl]
      simp [List.takeWhile_cons]
    · rw [if_neg h]
      rcases heq : pySplit sep rest with _ | ⟨g, gs⟩
      · exact absurd heq (pySplit_ne_nil sep rest)
      · have hg : g = rest.takeWhile (fun c => decide (c ≠ sep)) := by
          rw [← ih, heq]
          rfl
        simp [List.takeWhile_cons, h, hg]

theorem pySplit_no_sep (sep : Char) (l : List Char) (h : sep ∉ l) : pySplit sep l = [l] := by
  induction l with
  | nil => rfl
  | cons c rest ih =>
    unfold pySplit
    have hc : ¬ c = sep := fun hcs => h (hcs ▸ List.mem_cons_self c rest)
    rw [if_neg hc, ih (fun hm => h (List.mem_cons_of_mem c hm))]

theorem pySplit_sep_cons (sep : Char) (rest : List Char) :
    pySplit sep (sep :: rest) = [] :: pySplit sep rest := by
  simp [pySplit]

theorem pySplit_other_cons (sep c : Char) (rest : List Char) (h : ¬ c = sep) :
    pySplit sep (c :: rest) =
      match pySplit sep rest with
      | [] => [[c]]
      | g :: gs => (c :: g) :: gs := by
  simp [pySplit, h]

theorem pySplit_length_two (sep : Char) (l1 l2 : List Char) :
    2 ≤ (pySplit sep (l1 ++ sep :: l2)).length := by
  induction l1 with
  | nil =>
    rw [List.nil_append, pySplit_sep_cons, List.length_cons]
    have h0 := pySplit_ne_nil sep l2
    have h1 : 1 ≤ (pySplit sep l2).length := List.length_pos.mpr h0
    omega
  | cons c l1 ih =>
    rw [List.cons_append]
    by_cases h : c = sep
    · subst h
      rw [pySplit_sep_cons, List.length_cons]
      omega
    · rw [pySplit_other_cons sep c _ h]
      rcases heq : pySplit sep (l1 ++ sep :: l2) with _ | ⟨g, gs⟩
      · exact absurd heq (pySplit_ne_nil sep _)
      · rw [heq] at ih
        simpa using ih

theorem pySplit_getLastD_append (sep : Char) (l1 l2 : List Char) :
    (pySplit sep (l1 ++ sep :: l2)).getLastD [] = (pySplit sep l2).getLastD [] := by
  induction l1 with
  | nil =>
    rw [List.nil_append, pySplit_sep_cons, List.getLastD_cons]
  | cons c l1 ih =>
    rw [List.cons_append]
    by_cases h : c = sep
    · subst h
      rw [pySplit_sep_cons, List.getLastD_cons]
      exact ih
    · rw [pySplit_other_cons sep c _ h]
      rcases heq : pySplit sep (l1 ++ sep :: l2) with _ | ⟨g, gs⟩
      · exact absurd heq (pySplit_ne_nil sep _)
      · have hlen := pySplit_length_two sep l1 l2
        rw [heq] at hlen ih
        rcases gs with _ | ⟨g1, gs1⟩
        · simp at hlen
        · rw [List.getLastD_cons] at ih ⊢
          rw [List.getLastD_cons] at ih ⊢
          exact ih

theorem takeWhile_all {α : Type _} (p : α → Bool) (l : List α)
    (h : ∀ a ∈ l, p a = true) : l.takeWhile p = l := by
  induction l with
  | nil => rfl
  | cons a l ih =>
    rw [List.takeWhile_cons, h a (List.mem_cons_self a l),
      ih (fun b hb => h b (List.mem_cons_of_mem a hb))]
    simp

theorem takeWhile_middle {α : Type _} (p : α → Bool) (l1 : List α) (x : α) (l2 : List α)
    (hall : ∀ a ∈ l1, p a = true) (hx : p x = false) :
    (l1 ++ x :: l2).takeWhile p = l1 := by
  induction l1 with
  | nil => simp [List.takeWhile_cons, hx]
  | cons a l1 ih =>
    rw [List.cons_append, List.takeWhile_cons, hall a (List.mem_cons_self a l1),
      ih (fun b hb => hall b (List.mem_cons_of_mem a hb))]
    simp

theorem dropWhile_middle {α : Type _} (p : α → Bool) (l1 : List α) (x : α) (l2 : List α)
    (hall : ∀ a ∈ l1, p a = true) (hx : p x = false) :
    (l1 ++ x :: l2).dropWhile p = x :: l2 := by
  induction l1 with
  | nil => simp [List.dropWhile_cons, hx]
  | cons a l1 ih =>
    rw [List.cons_append, List.dropWhile_cons]
    rw [hall a (List.mem_cons_self a l1)]
    simpa using ih (fun b hb => hall b (List.mem_cons_of_mem a hb))

theorem specStripVersion_no_v (tail : List Char) (h : 'v' ∉ tail) :
    specStripVersion tail = tail := by
  unfold specStripVersion
  rw [if_neg]
  rintro ⟨-, hhead⟩
  rcases heq : tail.reverse.dropWhile Char.isDigit with _ | ⟨a, r⟩
  · rw [heq] at hhead
    exact Option.noConfusion hhead
  · rw [heq] at hhead
    have ha : a = 'v' := by
      injection hhead with h1
    have hmem : a ∈ tail := by
      have hsub : List.Sublist (tail.reverse.dropWhile Char.isDigit) tail.reverse :=
        List.dropWhile_sublist _
      rw [heq] at hsub
      exact List.mem_reverse.mp (hsub.mem (List.mem_cons_self a r))
    exact h (ha ▸ hmem)

theorem specStripVersion_version (b d : List Char) (hd : d ≠ [])
    (hdig : ∀ c ∈ d, c.isDigit = true) :
    specStripVersion (b ++ 'v' :: d) = b := by
  unfold specStripVersion
  have hrev : (b ++ 'v' :: d).reverse = d.reverse ++ 'v' :: b.reverse := by
    simp
  have hall : ∀ c ∈ d.reverse, c.isDigit = true :=
    fun c hc => hdig c (List.mem_reverse.mp hc)
  have hvd : ('v').isDigit = false := by decide
  have hdrop : (b ++ 'v' :: d).reverse.dropWhile Char.isDigit = 'v' :: b.reverse := by
    rw [hrev]
    exact dropWhile_middle _ _ _ _ hall hvd
  have htake : (b ++ 'v' :: d).reverse.takeWhile Char.isDigit = d.reverse := by
    rw [hrev]
    exact takeWhile_middle _ _ _ _ hall hvd
  rw [hdrop, htake, if_pos]
  · simp
  · constructor
    · rcases heqd : d.reverse with _ | ⟨d0, ds⟩
      · exact absurd (by simpa using heqd) hd
      · rfl
    · rfl

/-- Claim C9 counterexample: The entry identifier
`http://arxiv.org/abs/1v2v3`: its final path segment `1v2v3` carries the
trailing version suffix `v3`, so the claim demands the canonical id
`1v2`; the code cuts at the FIRST `v` of the segment and produces `1`. -/
theorem arxiv_id_first_v_not_trailing :
    canonical_arxiv_id "http://arxiv.org/abs/1v2v3" = "1" ∧
    specStripVersion ("1v2v3".data) = "1v2".data ∧
    ("1" : String).data ≠ "1v2".data := by
  refine ⟨by decide, by decide, by decide⟩

/-- Claim C9 amended: The code takes the part of the final path segment
before its FIRST `v` (the whole segment when it has none).  This agrees
with the spec's trailing-version stripping exactly on segments whose only
`v` (if any) begins a trailing `v`+digits suffix — in particular on all
standard arXiv entry ids — and disagrees otherwise. -/
theorem arxiv_id_canonical (pre tail : List Char) (hsl : '/' ∉ tail)
    (hshape : 'v' ∉ tail ∨
      ∃ b d, tail = b ++ 'v' :: d ∧ 'v' ∉ b ∧ d ≠ [] ∧ ∀ c ∈ d, c.isDigit = true) :
    arxiv_id_of_entry (pre ++ '/' :: tail) = specStripVersion tail ∧
    arxiv_id_of_entry (pre ++ '/' :: tail) =
      tail.takeWhile (fun c => decide (c ≠ 'v')) := by
  have hlast : (pySplit '/' (pre ++ '/' :: tail)).getLastD [] = tail := by
    rw [pySplit_getLastD_append, pySplit_no_sep '/' tail hsl]
    rfl
  have hcode : arxiv_id_of_entry (pre ++ '/' :: tail) =
      tail.takeWhile (fun c => decide (c ≠ 'v')) := by
    unfold arxiv_id_of_entry
    rw [hlast, pySplit_headD]
  refine ⟨?_, hcode⟩
  rcases hshape with hnov | ⟨b, d, htail, hbv, hd, hdig⟩
  · rw [hcode, specStripVersion_no_v tail hnov]
    exact takeWhile_all _ tail (fun c hc => by
      simp only [decide_eq_true_eq]
      exact fun hcv => hnov (hcv ▸ hc))
  · subst htail
    rw [hcode, specStripVersion_version b d hd hdig]
    exact takeWhile_middle _ b 'v' d
      (fun c hc => by
        simp only [decide_eq_true_eq]
        exact fun hcv => hbv (hcv ▸ hc))
      (by simp)

/-- Claim C9 amended witness: A standard arXiv entry id: both the code and
trailing-version stripping give `2502.12345` for
`http://arxiv.org/abs/2502.12345v2`. -/
theorem arxiv_id_canonical_witness :
    arxiv_id_of_entry ("http://arxiv.org/abs/2502.12345v2".data) = "2502.12345".data ∧
    specStripVersion ("2502.12345v2".data) = "2502.12345".data := by
  have hsplit : "http://arxiv.org/abs/2502.12345v2".data =
      "http://arxiv.org/abs".data ++ '/' :: "2502.12345v2".data := by decide
  have h := arxiv_id_canonical ("http://arxiv.org/abs".data) ("2502.12345v2".data)
    (by decide)
    (Or.inr ⟨"2502.12345".data, ['2'], by decide, by decide, by decide⟩)
  constructor
  · rw [hsplit, h.1]
    decide
  · decide

/-- Claim C1: On a feed sorted by descending publish time whose in-window
entries have pairwise-distinct canonical ids, none already stored: the
loop emits exactly the entries with UTC publish time `≥ window_start`
(every such entry of the feed, in feed order, each after an insertion
attempt), counts exactly them as in-window insertion attempts, and scans
at most one entry beyond them — the first out-of-window entry stops the
loop unemitted and the rest of the feed is never visited.  In particular
an entry at exactly `window_start` is emitted and one a second earlier is
not. -/
theorem scan_feed_window (window_start : Int) (iso : Int → String) (now_iso : String)
    (feed : List FeedEntry) (db : List StoredRecord)
    (hsorted : feed.Pairwise (fun a b => to_utc b.published ≤ to_utc a.published))
    (hids : ((scanWindow window_start feed).map
      (fun r => canonical_arxiv_id r.entry_id)).Nodup)
    (hfresh : ∀ r ∈ scanWindow window_start feed, ∀ s ∈ db,
      s.arxiv_id ≠ canonical_arxiv_id r.entry_id) :
    (scan_feed window_start iso now_iso feed db).new_papers =
      (scanWindow window_start feed).map (mkPaper iso) ∧
    (∀ r ∈ feed, window_start ≤ to_utc r.published →
      r ∈ scanWindow window_start feed) ∧
    (∀ r ∈ scanWindow window_start feed, window_start ≤ to_utc r.published) ∧
    (scan_feed window_start iso now_iso feed db).in_window =
      (scanWindow window_start feed).length ∧
    (scan_feed window_start iso now_iso feed db).scanned =
      min ((scanWindow window_start feed).length + 1) feed.length := by
  induction feed generalizing db with
  | nil =>
    refine ⟨rfl, ?_, ?_, rfl, rfl⟩
    · intro r hr
      exact absurd hr (List.not_mem_nil r)
    · intro r hr
      exact absurd hr (List.not_mem_nil r)
  | cons r rest ih =>
    by_cases hpub : to_utc r.published < window_start
    · have hwin : scanWindow window_start (r :: rest) = [] := by
        unfold scanWindow
        rw [List.takeWhile_cons]
        simp [hpub]
      have hscan : scan_feed window_start iso now_iso (r :: rest) db = ⟨[], 1, 0, db⟩ := by
        unfold scan_feed
        rw [if_pos hpub]
      rw [hscan, hwin]
      refine ⟨rfl, ?_, ?_, rfl, ?_⟩
      · intro r' hr' hge
        rcases List.mem_cons.mp hr' with h | h
        · subst h
          omega
        · have hle : to_utc r'.published ≤ to_utc r.published :=
            (List.pairwise_cons.mp hsorted).1 r' h
          omega
      · intro r' hr'
        exact absurd hr' (List.not_mem_nil r')
      · simp
    · have hwin : scanWindow window_start (r :: rest) =
          r :: scanWindow window_start rest := by
        unfold scanWindow
        rw [List.takeWhile_cons]
        simp [hpub]
      rw [hwin] at hids hfresh
      have hrmem : r ∈ r :: scanWindow window_start rest := List.mem_cons_self r _
      have habs : ∀ s ∈ db, s.arxiv_id ≠ canonical_arxiv_id r.entry_id :=
        hfresh r hrmem
      have hins := insert_if_new_of_absent db (canonical_arxiv_id r.entry_id)
        r.title (pyStrip (r.summary.getD "")) (iso (to_utc r.published)) now_iso habs
      have hmap := List.map_cons (fun r => canonical_arxiv_id r.entry_id) r
        (scanWindow window_start rest)
      rw [hmap, List.nodup_cons] at hids
      have hfresh' : ∀ r' ∈ scanWindow window_start rest,
          ∀ s ∈ db ++ [⟨canonical_arxiv_id r.entry_id, r.title,
            pyStrip (r.summary.getD ""), iso (to_utc r.published), now_iso⟩],
          s.arxiv_id ≠ canonical_arxiv_id r'.entry_id := by
        intro r' hr' s hs
        rcases List.mem_append.mp hs with h | h
        · exact hfresh r' (List.mem_cons_of_mem r hr') s h
        · have hsr : s = ⟨canonical_arxiv_id r.entry_id, r.title,
              pyStrip (r.summary.getD ""), iso (to_utc r.published), now_iso⟩ := by
            simpa using h
          subst hsr
          intro hcontra
          have hc2 : canonical_arxiv_id r.entry_id = canonical_arxiv_id r'.entry_id :=
            hcontra
          refine hids.1 ?_
          rw [hc2]
          exact List.mem_map_of_mem (fun r => canonical_arxiv_id r.entry_id) hr'
      have ihres := ih (db ++ [⟨canonical_arxiv_id r.entry_id, r.title,
          pyStrip (r.summary.getD ""), iso (to_utc r.published), now_iso⟩])
        (List.Pairwise.of_cons hsorted) hids.2 hfresh'
      have hscan : scan_feed window_start iso now_iso (r :: rest) db =
          ⟨[mkPaper iso r] ++ (scan_feed window_start iso now_iso rest
              (db ++ [⟨canonical_arxiv_id r.entry_id, r.title,
                pyStrip (r.summary.getD ""), iso (to_utc r.published), now_iso⟩])).new_papers,
            (scan_feed window_start iso now_iso rest
              (db ++ [⟨canonical_arxiv_id r.entry_id, r.title,
                pyStrip (r.summary.getD ""), iso (to_utc r.published), now_iso⟩])).scanned + 1,
            (scan_feed window_start iso now_iso rest
              (db ++ [⟨canonical_arxiv_id r.entry_id, r.title,
                pyStrip (r.summary.getD ""), iso (to_utc r.published), now_iso⟩])).in_window + 1,
            (scan_feed window_start iso now_iso rest
              (db ++ [⟨canonical_arxiv_id r.entry_id, r.title,
                pyStrip (r.summary.getD ""), iso (to_utc r.published), now_iso⟩])).db⟩ := by
        simp only [scan_feed]
        rw [if_neg hpub]
        simp only [mkPaper, hins]
        simp
      rw [hscan, hwin]
      refine ⟨?_, ?_, ?_, ?_, ?_⟩
      · rw [List.map_cons]
        simp only [List.singleton_append]
        rw [ihres.1]
      · intro r' hr' hge
        rcases List.mem_cons.mp hr' with h | h
        · subst h
          exact List.mem_cons_self r' _
        · exact List.mem_cons_of_mem r (ihres.2.1 r' h hge)
      · intro r' hr'
        rcases List.mem_cons.mp hr' with h | h
        · subst h
          omega
        · exact ihres.2.2.1 r' h
      · simp only [List.length_cons]
        rw [ihres.2.2.2.1]
      · simp only [List.length_cons]
        rw [ihres.2.2.2.2]
        omega

/-- Claim C1 witness: Window start 100; a two-entry feed with publish
instants exactly 100 (aware UTC) and 99 (naive, one second before):
exactly the first entry is emitted, both entries are scanned (the second
stops the loop), and one insertion attempt is counted. -/
theorem scan_feed_window_witness :
    (scan_feed 100 (fun _ => "ISO") "NOW"
      [⟨"http://arxiv.org/abs/2502.11111v1", "T1", some " S1 ", ⟨100, some 0⟩⟩,
       ⟨"http://arxiv.org/abs/2502.22222v1", "T2", none, ⟨99, none⟩⟩] []).new_papers =
      [⟨"2502.11111", "T1", "ISO", "http://arxiv.org/abs/2502.11111v1", "S1"⟩] ∧
    (scan_feed 100 (fun _ => "ISO") "NOW"
      [⟨"http://arxiv.org/abs/2502.11111v1", "T1", some " S1 ", ⟨100, some 0⟩⟩,
       ⟨"http://arxiv.org/abs/2502.22222v1", "T2", none, ⟨99, none⟩⟩] []).scanned = 2 ∧
    (scan_feed 100 (fun _ => "ISO") "NOW"
      [⟨"http://arxiv.org/abs/2502.11111v1", "T1", some " S1 ", ⟨100, some 0⟩⟩,
       ⟨"http://arxiv.org/abs/2502.22222v1", "T2", none, ⟨99, none⟩⟩] []).in_window = 1 := by
  have h := scan_feed_window 100 (fun _ => "ISO") "NOW"
    [⟨"http://arxiv.org/abs/2502.11111v1", "T1", some " S1 ", ⟨100, some 0⟩⟩,
     ⟨"http://arxiv.org/abs/2502.22222v1", "T2", none, ⟨99, none⟩⟩] []
    (by decide) (by decide) (by decide)
  refine ⟨?_, ?_, ?_⟩
  · rw [h.1]
    decide
  · rw [h.2.2.2.2]
    decide
  · rw [h.2.2.2.1]
    decide

end DailyReport
